import Mathlib

/-!
Shallow embedding of a small directed-graph library (graph store with
index-based nodes and edges, a successor enumerator, breadth-first and
depth-first traversals), together with theorems about the embedded
operations.

Rust `Vec` becomes `List` (push = append at the end, indexing = `l[i]?`),
machine indices become `Nat`, code that can panic (out-of-bounds indexing)
returns `Option`, and the lazy iterators become explicit state machines
driven by a fuel-bounded run function, `none` denoting a panic or a
non-terminating walk.
-/

/-- An edge record: the target node index and the index of the next
outgoing edge of the same source node (the per-node edge list is threaded
through the shared edge array). -/
structure Edge where
  target : Nat
  next_outgoing_edge : Option Nat
deriving DecidableEq

/-- A node record: the caller-supplied value and the head of the node's
outgoing-edge list. -/
structure Node (T : Type) where
  value : T
  first_outgoing_edge : Option Nat
deriving DecidableEq

/-- The graph store: two append-only sequences of nodes and edges. -/
structure Graph (T : Type) where
  nodes : List (Node T)
  edges : List Edge
deriving DecidableEq

/-- Creates a new empty graph. -/
def Graph.new (T : Type) : Graph T := ⟨[], []⟩

/-- Adds a new node to the graph, returning the updated graph and the
`NodeIndex` representing the node. -/
def Graph.add_node (g : Graph T) (value : T) : Graph T × Nat :=
  let index := g.nodes.length
  (⟨g.nodes ++ [⟨value, none⟩], g.edges⟩, index)

/-- Adds a new edge to the graph, returning the updated graph and the
`EdgeIndex` representing the edge.  The Rust code indexes
`self.nodes[source]`, which panics when `source` is out of bounds
(modelled by `none`); `target` is not validated at all. -/
def Graph.add_edge (g : Graph T) (source target : Nat) : Option (Graph T × Nat) :=
  let edge_index := g.edges.length
  match g.nodes[source]? with
  | none => none
  | some node_data =>
      some (⟨g.nodes.set source { node_data with first_outgoing_edge := some edge_index },
             g.edges ++ [⟨target, node_data.first_outgoing_edge⟩]⟩,
            edge_index)

/-- Value access by node index; out-of-bounds indexing panics in the Rust
code, modelled by `none`. -/
def Graph.node_value (g : Graph T) (index : Nat) : Option T :=
  (g.nodes[index]?).map Node.value

/-- Finds the index of the first node (in insertion order) holding the
given value. -/
def Graph.find_node [DecidableEq T] (g : Graph T) (value : T) : Option Nat :=
  g.nodes.findIdx? (fun node => node.value = value)

/-- The walk of the `Successors` iterator: follow `next_outgoing_edge`
links starting from `cur`, collecting edge targets.  A dangling edge index
panics in Rust (`none` here); `fuel` bounds the number of steps, `none` on
exhaustion standing for a walk that does not terminate within the bound. -/
def succWalk (edges : List Edge) : Option Nat → Nat → Option (List Nat)
  | none, _ => some []
  | some _, 0 => none
  | some edge_index, fuel + 1 =>
      match edges[edge_index]? with
      | none => none
      | some edge => (succWalk edges edge.next_outgoing_edge fuel).map (edge.target :: ·)

/-- The successor enumerator: the list of targets of `source`'s outgoing
edges, most recently added edge first.  Panics (in Rust) when `source` is
out of bounds. -/
def Graph.successors (g : Graph T) (source : Nat) : Option (List Nat) :=
  match g.nodes[source]? with
  | none => none
  | some node => succWalk g.edges node.first_outgoing_edge g.edges.length

/-- The size hint of the `Successors` iterator: `(0, Some(nodes.len() - 1))`.
(The subtraction is `usize` subtraction in Rust; it is only reachable with
a nonempty node list, since building the iterator indexes `nodes[source]`.) -/
def Successors.size_hint (g : Graph T) : Nat × Option Nat :=
  (0, some (g.nodes.length - 1))

/-- The find-or-add-node operation used by the edge-pair-list builder:
look the value up, inserting a fresh node when absent. -/
def findOrAdd [DecidableEq T] (g : Graph T) (value : T) : Graph T × Nat :=
  match g.find_node value with
  | some index => (g, index)
  | none => g.add_node value

/-- The `FromIterator` builder: for each (source value, target value) pair,
look up or insert both endpoints, then add the edge. -/
def fromPairs [DecidableEq T] (pairs : List (T × T)) : Option (Graph T) :=
  pairs.foldlM
    (fun g st =>
      let p := findOrAdd g st.1
      let q := findOrAdd p.1 st.2
      (q.1.add_edge p.2 q.2).map Prod.fst)
    (Graph.new T)

/-- One public mutating operation on the graph store. -/
inductive Op (T : Type) where
  | add_node (value : T)
  | add_edge (source target : Nat)
deriving DecidableEq

/-- Applies one operation, keeping only the resulting graph. -/
def applyOp (g : Graph T) : Op T → Option (Graph T)
  | .add_node value => some (g.add_node value).1
  | .add_edge source target => (g.add_edge source target).map Prod.fst

/-- Applies a sequence of operations starting from a given graph. -/
def applyOps (g : Graph T) (ops : List (Op T)) : Option (Graph T) :=
  ops.foldlM applyOp g

/-- Builds a graph through the public API from the empty graph. -/
def buildGraph (ops : List (Op T)) : Option (Graph T) :=
  applyOps (Graph.new T) ops

/-- The targets of the `add_edge` operations whose source is `n`, in
insertion order. -/
def edgeTargetsFrom (ops : List (Op T)) (n : Nat) : List Nat :=
  ops.filterMap (fun op =>
    match op with
    | .add_edge source target => if source = n then some target else none
    | .add_node _ => none)

/-- Depth-first traversal state: per-node visited flags and an explicit
stack of pending node indices (head of the list = top of the stack). -/
structure Dfs where
  visited : List Bool
  stack : List Nat
deriving DecidableEq

/-- Creates a depth-first iterator over the graph, starting from `source`. -/
def Graph.dfs (g : Graph T) (source : Nat) : Dfs :=
  ⟨g.nodes.map (fun _ => false), [source]⟩

/-- Marks a node visited; `visited[node]` panics (in Rust) when `node` is
out of bounds. -/
def setVisited (visited : List Bool) (node : Nat) : Option (List Bool) :=
  if node < visited.length then some (visited.set node true) else none

/-- `Dfs::visit`: mark the node visited, then push each of its successors
onto the stack in enumeration order. -/
def Dfs.visit (g : Graph T) (d : Dfs) (node : Nat) : Option Dfs :=
  match setVisited d.visited node, g.successors node with
  | some visited, some succs =>
      some ⟨visited, succs.foldl (fun stack next => next :: stack) d.stack⟩
  | _, _ => none

/-- The pop loop of `Dfs::next`: pop until an unvisited node is found (or
the stack empties), mark it, push its successors, and emit it.  The outer
`Option` is a panic, the inner `Option` the iterator's own
end-of-sequence. -/
def dfsNextGo (g : Graph T) (visited : List Bool) : List Nat → Option (Option (Nat × Dfs))
  | [] => some none
  | node :: stack =>
      match visited[node]? with
      | none => none
      | some true => dfsNextGo g visited stack
      | some false =>
          match Dfs.visit g ⟨visited, stack⟩ node with
          | none => none
          | some d => some (some (node, d))

/-- `Dfs::next` on the bundled traversal state. -/
def Dfs.next (g : Graph T) (d : Dfs) : Option (Option (Nat × Dfs)) :=
  dfsNextGo g d.visited d.stack

/-- The size hint of the `Dfs` iterator: `(0, Some(nodes.len()))`. -/
def Dfs.size_hint (g : Graph T) : Nat × Option Nat :=
  (0, some g.nodes.length)

/-- Drains the depth-first iterator, collecting the emitted nodes; `fuel`
bounds the number of pulls. -/
def dfsRun (g : Graph T) : Dfs → Nat → Option (List Nat)
  | _, 0 => none
  | d, fuel + 1 =>
      match Dfs.next g d with
      | none => none
      | some none => some []
      | some (some (node, d2)) => (dfsRun g d2 fuel).map (node :: ·)

/-- The full sequence of nodes emitted by `dfs(source)`. -/
def Graph.dfsList (g : Graph T) (source fuel : Nat) : Option (List Nat) :=
  dfsRun g (g.dfs source) fuel

/-- A canonical enumeration of a finite set of node indices (insertion
sort of the underlying list).  The Rust `HashSet` iterates in an
unspecified order; the loop below is order-independent, so any fixed
enumeration is a faithful model. -/
def finsetSort (S : Finset Nat) : List Nat :=
  Quotient.liftOn S.val (fun l => l.insertionSort (· ≤ ·))
    (fun l1 l2 h =>
      List.eq_of_perm_of_sorted
        (((List.perm_insertionSort _ l1).trans h).trans
          (List.perm_insertionSort _ l2).symm)
        (List.sorted_insertionSort _ l1)
        (List.sorted_insertionSort _ l2))

/-- Breadth-first traversal state: per-node visited flags and a queue of
frontiers (head of the list = front of the queue); the Rust `HashSet` of a
frontier becomes a `Finset`. -/
structure Bfs where
  visited : List Bool
  queue : List (Finset Nat)
deriving DecidableEq

/-- Creates a breadth-first iterator over the graph, starting from
`source`: the queue initially holds the single frontier `{source}`. -/
def Graph.bfs (g : Graph T) (source : Nat) : Bfs :=
  ⟨g.nodes.map (fun _ => false), [{source}]⟩

/-- The loop body of `Bfs::next`: for each node of the popped frontier (in
the `HashSet`'s enumeration order, which does not affect the result), mark
it visited and union its successors into `next`. -/
def bfsExtendLoop (g : Graph T) :
    List Nat → List Bool → Finset Nat → Option (List Bool × Finset Nat)
  | [], visited, next => some (visited, next)
  | node :: rest, visited, next =>
      match setVisited visited node, g.successors node with
      | some visited2, some succs =>
          bfsExtendLoop g rest visited2 (next ∪ succs.toFinset)
      | _, _ => none

/-- `next.retain(|&next| !self.is_visited(next))`: keep the unvisited
nodes; `is_visited` panics on an out-of-bounds index. -/
def retainUnvisited (visited : List Bool) (next : Finset Nat) : Option (Finset Nat) :=
  if ∀ v ∈ next, v < visited.length then
    some (next.filter (fun v => visited[v]? = some false))
  else none

/-- `Bfs::next`: pop the front frontier, visit all its nodes collecting
their successors, drop the already-visited ones, enqueue the next frontier
when nonempty, and emit the popped frontier (a panic anywhere propagates
as `none` through the binds). -/
def Bfs.next (g : Graph T) (b : Bfs) : Option (Option (Finset Nat × Bfs)) :=
  match b.queue with
  | [] => some none
  | nodes :: queue =>
      (bfsExtendLoop g (finsetSort nodes) b.visited ∅).bind fun p =>
        (retainUnvisited p.1 p.2).map fun next =>
          some (nodes, ⟨p.1, if next = ∅ then queue else queue ++ [next]⟩)

/-- The size hint of the `Bfs` iterator: `(0, Some(nodes.len()))`. -/
def Bfs.size_hint (g : Graph T) : Nat × Option Nat :=
  (0, some g.nodes.length)

/-- Drains the breadth-first iterator, collecting the emitted frontiers;
`fuel` bounds the number of pulls. -/
def bfsRun (g : Graph T) : Bfs → Nat → Option (List (Finset Nat))
  | _, 0 => none
  | b, fuel + 1 =>
      match Bfs.next g b with
      | none => none
      | some none => some []
      | some (some (nodes, b2)) => (bfsRun g b2 fuel).map (nodes :: ·)

/-- The full sequence of frontiers emitted by `bfs(source)`. -/
def Graph.bfsList (g : Graph T) (source fuel : Nat) : Option (List (Finset Nat)) :=
  bfsRun g (g.bfs source) fuel

/-! ### Well-formedness of the store -/

/-- Bounded option: the index held by `o`, when present, is below `m`. -/
def optLtB (o : Option Nat) (m : Nat) : Bool :=
  match o with
  | none => true
  | some e => decide (e < m)

/-- Every node's outgoing-edge head, when present, is a valid edge index. -/
def HeadsWF (g : Graph T) : Prop :=
  ∀ i < g.nodes.length, optLtB ((g.nodes[i]?).bind Node.first_outgoing_edge) g.edges.length = true

/-- Every edge's `next_outgoing_edge`, when present, is strictly below the
edge's own index (new edges always point at the previous list head). -/
def EdgesWF (edges : List Edge) : Prop :=
  ∀ j < edges.length, optLtB ((edges[j]?).bind Edge.next_outgoing_edge) j = true

/-- Every edge's target is a valid node index. -/
def TargetsWF (g : Graph T) : Prop :=
  ∀ j < g.edges.length, optLtB ((g.edges[j]?).map Edge.target) g.nodes.length = true

/-- Full well-formedness of a graph store. -/
def GraphWF (g : Graph T) : Prop :=
  HeadsWF g ∧ EdgesWF g.edges ∧ TargetsWF g

instance (g : Graph T) : Decidable (HeadsWF g) := by
  unfold HeadsWF
  infer_instance

instance (edges : List Edge) : Decidable (EdgesWF edges) := by
  unfold EdgesWF
  infer_instance

instance (g : Graph T) : Decidable (TargetsWF g) := by
  unfold TargetsWF
  infer_instance

instance (g : Graph T) : Decidable (GraphWF g) := by
  unfold GraphWF
  infer_instance

/-! ### Iterated find-or-add (for idempotence) -/

/-- Applies the find-or-add-node operation `n` times with the same value,
starting from the empty graph. -/
def iterFindOrAdd [DecidableEq T] (value : T) : Nat → Graph T
  | 0 => Graph.new T
  | n + 1 => (findOrAdd (iterFindOrAdd value n) value).1

/-! ### Distance layers and walks (for the breadth-first analysis) -/

/-- The set of indices marked true in a visited-flag list. -/
def visitedSet (l : List Bool) : Finset Nat :=
  (Finset.range l.length).filter (fun i => l[i]? = some true)

/-- Successor list as a total function (defaulting to `[]`; under
well-formedness the enumerator never fails on valid nodes). -/
def succsD (g : Graph T) (u : Nat) : List Nat :=
  (g.successors u).getD []

/-- One-step neighborhood of a set of nodes. -/
def nbhd (g : Graph T) (S : Finset Nat) : Finset Nat :=
  S.biUnion (fun u => (succsD g u).toFinset)

/-- Nodes reachable from `s` by a walk of length at most `k`. -/
def ball (g : Graph T) (s : Nat) : Nat → Finset Nat
  | 0 => {s}
  | k + 1 => ball g s k ∪ nbhd g (ball g s k)

/-- Nodes at distance exactly `k` from `s` (the `k`-th breadth-first
layer). -/
def sphere (g : Graph T) (s : Nat) : Nat → Finset Nat
  | 0 => {s}
  | k + 1 => ball g s (k + 1) \ ball g s k

/-- Nodes already visited before the `k`-th layer is processed. -/
def preBall (g : Graph T) (s : Nat) : Nat → Finset Nat
  | 0 => ∅
  | k + 1 => ball g s k

/-- Edge relation: `v` is a successor of `u`. -/
def Adj (g : Graph T) (u v : Nat) : Prop := v ∈ succsD g u

/-- There is a walk of length exactly `k` from `s` to `v`. -/
def WalkLen (g : Graph T) (s v k : Nat) : Prop :=
  ∃ p : List Nat, List.Chain (Adj g) s p ∧
    (s :: p).getLast (List.cons_ne_nil s p) = v ∧ p.length = k

/-- The shortest-path distance from `s` to `v` is exactly `k`. -/
def distIs (g : Graph T) (s v k : Nat) : Prop :=
  WalkLen g s v k ∧ ∀ j, j < k → ¬ WalkLen g s v j

/-- The state invariant of the breadth-first iterator after `k` frontiers
have been emitted. -/
def StInv (g : Graph T) (s k : Nat) (b : Bfs) : Prop :=
  b.visited.length = g.nodes.length ∧
  visitedSet b.visited = preBall g s k ∧
  b.queue = (if sphere g s k = ∅ then [] else [sphere g s k]) ∧
  k ≤ (visitedSet b.visited).card

/-- The plain safety invariant of any reachable breadth-first state: at
most one queued frontier, all of whose nodes are unvisited. -/
def BfsInv (b : Bfs) : Prop :=
  b.queue.length ≤ 1 ∧ ∀ S ∈ b.queue, ∀ v ∈ S, b.visited[v]? = some false

/-! ### Concrete example graphs from the specification -/

/-- Operations building a fan: nodes 0,1,2,3 and edges 0→1, 0→2, 0→3
added in that order. -/
def fanOps : List (Op Nat) :=
  [Op.add_node 0, Op.add_node 1, Op.add_node 2, Op.add_node 3,
   Op.add_edge 0 1, Op.add_edge 0 2, Op.add_edge 0 3]

/-- The fan graph (edges from node 0 to targets 1, 2, 3 in that order). -/
def fanGraph : Graph Nat := (buildGraph fanOps).getD (Graph.new Nat)

/-- A graph with a single node (value 7) and no edges. -/
def oneNodeGraph : Graph Nat := ((Graph.new Nat).add_node 7).1

/-- A graph with a single node carrying a self-loop. -/
def selfLoopGraph : Graph Nat :=
  (buildGraph [Op.add_node 0, Op.add_edge 0 0]).getD (Graph.new Nat)

/-- The chain 1→2→3→4 built from its edge-pair list. -/
def chainGraph : Graph Nat :=
  (fromPairs [(1, 2), (2, 3), (3, 4)]).getD (Graph.new Nat)

/-- The two-node cycle A→B, B→A built from its edge-pair list. -/
def twoCycleGraph : Graph Char :=
  (fromPairs [('A', 'B'), ('B', 'A')]).getD (Graph.new Char)

/-- The seven-node example graph of the specification, built from its
edge-pair list in the given order. -/
def sevenNodeGraph : Graph Char :=
  (fromPairs
    [('A', 'B'), ('A', 'C'), ('A', 'E'),
     ('B', 'A'), ('B', 'D'), ('B', 'F'),
     ('C', 'A'), ('C', 'G'),
     ('D', 'B'),
     ('E', 'A'), ('E', 'F'),
     ('F', 'B'), ('F', 'E'),
     ('G', 'C')]).getD (Graph.new Char)

/-- A one-node graph (value 5) used for the index-stability witness. -/
def stabBase : Graph Nat := ((Graph.new Nat).add_node 5).1

/-- Further operations run after the first node was added. -/
def stabOps : List (Op Nat) := [Op.add_node 6, Op.add_edge 1 0]

/-- The graph after the further operations. -/
def stabG : Graph Nat := (applyOps stabBase stabOps).getD (Graph.new Nat)

theorem optLtB_some {e m : Nat} (h : optLtB (some e) m = true) : e < m := by
  simpa [optLtB] using h

theorem EdgesWF.next_lt {edges : List Edge} (hwf : EdgesWF edges) {j : Nat} {e : Edge}
    (hj : edges[j]? = some e) {e2 : Nat} (hn : e.next_outgoing_edge = some e2) : e2 < j := by
  have hlen : j < edges.length := (List.getElem?_eq_some_iff.mp hj).1
  have := hwf j hlen
  rw [hj] at this
  simp only [Option.some_bind] at this
  rw [hn] at this
  exact optLtB_some this

theorem HeadsWF.head_lt {g : Graph T} (hwf : HeadsWF g) {i : Nat} {node : Node T}
    (hi : g.nodes[i]? = some node) {e : Nat} (hh : node.first_outgoing_edge = some e) :
    e < g.edges.length := by
  have hlen : i < g.nodes.length := (List.getElem?_eq_some_iff.mp hi).1
  have := hwf i hlen
  rw [hi] at this
  simp only [Option.some_bind] at this
  rw [hh] at this
  exact optLtB_some this

theorem TargetsWF.target_lt {g : Graph T} (hwf : TargetsWF g) {j : Nat} {e : Edge}
    (hj : g.edges[j]? = some e) : e.target < g.nodes.length := by
  have hlen : j < g.edges.length := (List.getElem?_eq_some_iff.mp hj).1
  have := hwf j hlen
  rw [hj] at this
  simp only [Option.map_some'] at this
  exact optLtB_some this

/-! ### Basic facts about the successor walk -/

theorem succWalk_none (edges : List Edge) (fuel : Nat) :
    succWalk edges none fuel = some [] := by
  cases fuel <;> rfl

theorem succWalk_zero (edges : List Edge) (e : Nat) :
    succWalk edges (some e) 0 = none := rfl

theorem succWalk_succ (edges : List Edge) (e fuel : Nat) :
    succWalk edges (some e) (fuel + 1) =
      (edges[e]?).bind
        (fun edge => (succWalk edges edge.next_outgoing_edge fuel).map (edge.target :: ·)) := by
  rw [succWalk]
  cases edges[e]? <;> rfl

theorem succWalk_length_le (edges : List Edge) :
    ∀ (fuel : Nat) (cur : Option Nat) (l : List Nat),
      succWalk edges cur fuel = some l → l.length ≤ fuel := by
  intro fuel
  induction fuel with
  | zero =>
      intro cur l h
      cases cur with
      | none =>
          rw [succWalk_none] at h
          simp only [Option.some.injEq] at h
          subst h
          simp
      | some e => rw [succWalk_zero] at h; exact absurd h (by simp)
  | succ f ih =>
      intro cur l h
      cases cur with
      | none =>
          rw [succWalk_none] at h
          simp only [Option.some.injEq] at h
          subst h
          simp
      | some e =>
          rw [succWalk_succ] at h
          cases he : edges[e]? with
          | none => rw [he] at h; exact absurd h (by simp)
          | some edge =>
              rw [he] at h
              simp only [Option.some_bind, Option.map_eq_some'] at h
              obtain ⟨l2, hrec, rfl⟩ := h
              simpa using ih _ l2 hrec

theorem succWalk_mono (edges : List Edge) :
    ∀ (fuel fuel2 : Nat) (cur : Option Nat) (l : List Nat), fuel ≤ fuel2 →
      succWalk edges cur fuel = some l → succWalk edges cur fuel2 = some l := by
  intro fuel
  induction fuel with
  | zero =>
      intro fuel2 cur l _ h
      cases cur with
      | none => rw [succWalk_none] at h ⊢; exact h
      | some e => rw [succWalk_zero] at h; exact absurd h (by simp)
  | succ f ih =>
      intro fuel2 cur l hle h
      cases cur with
      | none => rw [succWalk_none] at h ⊢; exact h
      | some e =>
          obtain ⟨f2, rfl⟩ : ∃ f2, fuel2 = f2 + 1 := ⟨fuel2 - 1, by omega⟩
          rw [succWalk_succ] at h
          rw [succWalk_succ]
          cases he : edges[e]? with
          | none => rw [he] at h; exact absurd h (by simp)
          | some edge =>
              rw [he] at h
              simp only [Option.some_bind, Option.map_eq_some'] at h
              obtain ⟨l2, hrec, rfl⟩ := h
              simp only [Option.some_bind, Option.map_eq_some']
              exact ⟨l2, ih f2 _ l2 (by omega) hrec, rfl⟩

theorem succWalk_append (edges tail : List Edge) (hwf : EdgesWF edges) :
    ∀ (fuel : Nat) (cur : Option Nat),
      (∀ e, cur = some e → e < edges.length) →
      succWalk (edges ++ tail) cur fuel = succWalk edges cur fuel := by
  intro fuel
  induction fuel with
  | zero =>
      intro cur _
      cases cur with
      | none => rw [succWalk_none, succWalk_none]
      | some e => rw [succWalk_zero, succWalk_zero]
  | succ f ih =>
      intro cur hbound
      cases cur with
      | none => rw [succWalk_none, succWalk_none]
      | some e =>
          have he : e < edges.length := hbound e rfl
          rw [succWalk_succ, succWalk_succ, List.getElem?_append_left he]
          cases hget : edges[e]? with
          | none => simp
          | some edge =>
              simp only [Option.some_bind]
              rw [ih edge.next_outgoing_edge (fun e2 h2 => by
                have := hwf.next_lt hget h2
                omega)]

theorem succWalk_total (edges : List Edge) (hwf : EdgesWF edges) :
    ∀ (fuel : Nat) (cur : Option Nat),
      (∀ e, cur = some e → e < fuel ∧ e < edges.length) →
      ∃ l, succWalk edges cur fuel = some l := by
  intro fuel
  induction fuel with
  | zero =>
      intro cur hbound
      cases cur with
      | none => exact ⟨[], succWalk_none _ _⟩
      | some e => exact absurd (hbound e rfl).1 (by omega)
  | succ f ih =>
      intro cur hbound
      cases cur with
      | none => exact ⟨[], succWalk_none _ _⟩
      | some e =>
          obtain ⟨hef, hel⟩ := hbound e rfl
          obtain ⟨edge, hget⟩ : ∃ edge, edges[e]? = some edge := by
            cases hg : edges[e]? with
            | none => rw [List.getElem?_eq_none_iff] at hg; omega
            | some edge => exact ⟨edge, rfl⟩
          obtain ⟨l, hl⟩ := ih edge.next_outgoing_edge (fun e2 h2 => by
            have := hwf.next_lt hget h2
            omega)
          refine ⟨edge.target :: l, ?_⟩
          rw [succWalk_succ, hget, Option.some_bind, hl]
          rfl

theorem successors_eq (g : Graph T) (n : Nat) :
    g.successors n =
      (g.nodes[n]?).bind
        (fun node => succWalk g.edges node.first_outgoing_edge g.edges.length) := by
  rw [Graph.successors]
  cases g.nodes[n]? <;> rfl

/-- Under well-formedness, the successor enumerator of any valid node
terminates with a list of at most `edges.length` targets. -/
theorem successors_total {g : Graph T} (hh : HeadsWF g) (he : EdgesWF g.edges)
    {n : Nat} (hn : n < g.nodes.length) :
    ∃ l, g.successors n = some l ∧ l.length ≤ g.edges.length := by
  obtain ⟨node, hnode⟩ : ∃ node, g.nodes[n]? = some node := by
    cases hg : g.nodes[n]? with
    | none => rw [List.getElem?_eq_none_iff] at hg; omega
    | some node => exact ⟨node, rfl⟩
  obtain ⟨l, hl⟩ := succWalk_total g.edges he g.edges.length node.first_outgoing_edge
    (fun e h2 => ⟨hh.head_lt hnode h2, hh.head_lt hnode h2⟩)
  refine ⟨l, ?_, succWalk_length_le _ _ _ _ hl⟩
  rw [successors_eq, hnode, Option.some_bind, hl]

/-! ### The build invariant: graphs reachable through the public API -/

theorem applyOps_append (g : Graph T) (l1 l2 : List (Op T)) :
    applyOps g (l1 ++ l2) = (applyOps g l1).bind (fun g2 => applyOps g2 l2) := by
  rw [applyOps, List.foldlM_append]
  rfl

theorem applyOps_singleton (g : Graph T) (op : Op T) :
    applyOps g [op] = applyOp g op := by
  rw [applyOps, List.foldlM_cons]
  cases applyOp g op <;> rfl

theorem add_edge_eq (g : Graph T) (s t : Nat) :
    g.add_edge s t =
      (g.nodes[s]?).map (fun node_data =>
        (⟨g.nodes.set s { node_data with first_outgoing_edge := some g.edges.length },
          g.edges ++ [⟨t, node_data.first_outgoing_edge⟩]⟩, g.edges.length)) := by
  rw [Graph.add_edge]
  cases g.nodes[s]? <;> rfl

theorem edgeTargetsFrom_append (l1 l2 : List (Op T)) (n : Nat) :
    edgeTargetsFrom (l1 ++ l2) n = edgeTargetsFrom l1 n ++ edgeTargetsFrom l2 n := by
  rw [edgeTargetsFrom, List.filterMap_append]
  rfl

theorem edgeTargetsFrom_eq_nil {ops : List (Op T)} {n : Nat}
    (h : ∀ s t, Op.add_edge s t ∈ ops → s ≠ n) : edgeTargetsFrom ops n = [] := by
  rw [edgeTargetsFrom, List.filterMap_eq_nil_iff]
  intro op hop
  cases op with
  | add_node v => rfl
  | add_edge s t => simp [h s t hop]

/-- The invariant of graphs built through the public API: heads and next
pointers are well formed, every recorded edge source is a valid node, and
each node's successor enumeration is exactly the reverse of the insertion
order of its edges. -/
theorem build_inv (ops : List (Op T)) :
    ∀ g, buildGraph ops = some g →
      HeadsWF g ∧ EdgesWF g.edges ∧
      (∀ s t, Op.add_edge s t ∈ ops → s < g.nodes.length) ∧
      (∀ n, n < g.nodes.length →
        g.successors n = some (edgeTargetsFrom ops n).reverse) := by
  induction ops using List.reverseRecOn with
  | nil =>
      intro g h
      rw [buildGraph, applyOps, List.foldlM_nil] at h
      obtain rfl : Graph.new T = g := by simpa using h
      refine ⟨?_, ?_, ?_, ?_⟩
      · intro i hi; simp [Graph.new] at hi
      · intro j hj; simp [Graph.new] at hj
      · intro s t hst; simp at hst
      · intro n hn; simp [Graph.new] at hn
  | append_singleton ops op ih =>
      intro g h
      rw [buildGraph, applyOps_append, Option.bind_eq_some] at h
      obtain ⟨g0, hg0, hop⟩ := h
      rw [applyOps_singleton] at hop
      obtain ⟨hheads, hedges, hsrc, hsucc⟩ := ih g0 hg0
      cases op with
      | add_node v =>
          rw [applyOp] at hop
          obtain rfl : (g0.add_node v).1 = g := by simpa using hop
          rw [Graph.add_node]
          refine ⟨?_, ?_, ?_, ?_⟩
          · intro i hi
            simp only [List.length_append, List.length_cons, List.length_nil] at hi
            rcases Nat.lt_or_ge i g0.nodes.length with hlt | hge
            · rw [List.getElem?_append_left hlt]
              exact hheads i hlt
            · obtain rfl : i = g0.nodes.length := by omega
              rw [List.getElem?_concat_length]
              rfl
          · exact hedges
          · intro s t hst
            rcases List.mem_append.mp hst with hmem | hmem
            · have := hsrc s t hmem
              simp only [List.length_append, List.length_cons, List.length_nil]
              omega
            · simp at hmem
          · intro n hn
            simp only [List.length_append, List.length_cons, List.length_nil] at hn
            rw [edgeTargetsFrom_append]
            have hnewtrace : edgeTargetsFrom [Op.add_node (T := T) v] n = [] := rfl
            rw [hnewtrace, List.append_nil]
            rcases Nat.lt_or_ge n g0.nodes.length with hlt | hge
            · rw [successors_eq]
              simp only [List.getElem?_append_left hlt]
              rw [← successors_eq]
              exact hsucc n hlt
            · have heq : n = g0.nodes.length := by omega
              rw [successors_eq, heq, List.getElem?_concat_length, Option.some_bind]
              have htrace : edgeTargetsFrom ops g0.nodes.length = [] :=
                edgeTargetsFrom_eq_nil (fun s t hst => by
                  have := hsrc s t hst; omega)
              rw [htrace]
              simp [succWalk_none]
      | add_edge s t =>
          rw [applyOp, add_edge_eq] at hop
          cases hnode0 : g0.nodes[s]? with
          | none => rw [hnode0] at hop; simp at hop
          | some node0 =>
              rw [hnode0] at hop
              simp only [Option.map_some', Option.some.injEq] at hop
              have hs : s < g0.nodes.length := (List.getElem?_eq_some_iff.mp hnode0).1
              have hgnodes : g.nodes =
                  g0.nodes.set s { node0 with first_outgoing_edge := some g0.edges.length } := by
                rw [← hop]
              have hgedges : g.edges = g0.edges ++ [⟨t, node0.first_outgoing_edge⟩] := by
                rw [← hop]
              have hnlen : g.nodes.length = g0.nodes.length := by
                rw [hgnodes, List.length_set]
              have helen : g.edges.length = g0.edges.length + 1 := by
                rw [hgedges]
                simp
              refine ⟨?_, ?_, ?_, ?_⟩
              · -- HeadsWF
                intro i hi
                rw [hnlen] at hi
                rw [hgnodes, helen]
                rcases eq_or_ne i s with rfl | hne
                · rw [List.getElem?_set_self (by omega)]
                  simp [optLtB]
                · rw [List.getElem?_set_ne (fun hcon => hne hcon.symm)]
                  cases hni : g0.nodes[i]? with
                  | none => rfl
                  | some node =>
                      rw [Option.some_bind]
                      cases hh : node.first_outgoing_edge with
                      | none => rfl
                      | some e =>
                          have := hheads.head_lt hni hh
                          simp only [optLtB]
                          simp
                          omega
              · -- EdgesWF
                intro j hj
                rw [hgedges] at hj ⊢
                simp only [List.length_append, List.length_cons, List.length_nil] at hj
                rcases Nat.lt_or_ge j g0.edges.length with hlt | hge
                · rw [List.getElem?_append_left hlt]
                  exact hedges j hlt
                · have heq : j = g0.edges.length := by omega
                  rw [heq, List.getElem?_concat_length, Option.some_bind]
                  cases hh : node0.first_outgoing_edge with
                  | none => rfl
                  | some e =>
                      have := hheads.head_lt hnode0 hh
                      simp only [optLtB]
                      simp
                      omega
              · intro s2 t2 hst
                rw [hnlen]
                rcases List.mem_append.mp hst with hmem | hmem
                · exact hsrc s2 t2 hmem
                · simp at hmem
                  obtain ⟨rfl, rfl⟩ := hmem
                  exact hs
              · intro n hn
                rw [hnlen] at hn
                rw [edgeTargetsFrom_append]
                have hbound0 : ∀ e, node0.first_outgoing_edge = some e →
                    e < g0.edges.length :=
                  fun e he2 => hheads.head_lt hnode0 he2
                rcases eq_or_ne n s with rfl | hne
                · have htail : edgeTargetsFrom [Op.add_edge (T := T) n t] n = [t] := by
                    simp [edgeTargetsFrom]
                  rw [htail, successors_eq, hgnodes, hgedges]
                  rw [List.getElem?_set_self (by omega), Option.some_bind]
                  simp only [List.length_append, List.length_cons, List.length_nil]
                  rw [succWalk_succ, List.getElem?_concat_length, Option.some_bind]
                  have hold := hsucc n hn
                  rw [successors_eq, hnode0, Option.some_bind] at hold
                  rw [succWalk_append g0.edges _ hedges _ _ hbound0, hold]
                  simp [List.reverse_concat]
                · have htail : edgeTargetsFrom [Op.add_edge (T := T) s t] n = [] := by
                    simp [edgeTargetsFrom, hne.symm]
                  rw [htail, List.append_nil, successors_eq, hgnodes, hgedges]
                  rw [List.getElem?_set_ne (fun hcon => hne hcon.symm)]
                  cases hni : g0.nodes[n]? with
                  | none =>
                      exact absurd (List.getElem?_eq_none_iff.mp hni) (by omega)
                  | some node =>
                      rw [Option.some_bind]
                      have hold := hsucc n hn
                      rw [successors_eq, hni, Option.some_bind] at hold
                      have hbound : ∀ e, node.first_outgoing_edge = some e →
                          e < g0.edges.length :=
                        fun e he2 => hheads.head_lt hni he2
                      simp only [List.length_append, List.length_cons, List.length_nil]
                      rw [succWalk_append g0.edges _ hedges _ _ hbound]
                      exact succWalk_mono _ _ _ _ _ (by omega) hold

/-! ### Preservation of existing entries by further operations -/

theorem applyOps_cons (g : Graph T) (op : Op T) (rest : List (Op T)) :
    applyOps g (op :: rest) = (applyOp g op).bind (fun g1 => applyOps g1 rest) := by
  rw [applyOps, List.foldlM_cons]
  cases applyOp g op <;> rfl

theorem applyOp_mono {g g2 : Graph T} {op : Op T} (h : applyOp g op = some g2) :
    g.nodes.length ≤ g2.nodes.length ∧
    (∀ i, i < g.nodes.length →
      (g2.nodes[i]?).map Node.value = (g.nodes[i]?).map Node.value) ∧
    g.edges.length ≤ g2.edges.length ∧
    (∀ j, j < g.edges.length → g2.edges[j]? = g.edges[j]?) := by
  cases op with
  | add_node v =>
      rw [applyOp] at h
      obtain rfl : (g.add_node v).1 = g2 := by simpa using h
      rw [Graph.add_node]
      refine ⟨by simp, ?_, le_refl _, fun j _ => rfl⟩
      intro i hi
      rw [List.getElem?_append_left hi]
  | add_edge s t =>
      rw [applyOp, add_edge_eq] at h
      cases hnode : g.nodes[s]? with
      | none => rw [hnode] at h; simp at h
      | some node0 =>
          rw [hnode] at h
          simp only [Option.map_some', Option.some.injEq] at h
          have hs : s < g.nodes.length := (List.getElem?_eq_some_iff.mp hnode).1
          have hgnodes : g2.nodes =
              g.nodes.set s { node0 with first_outgoing_edge := some g.edges.length } := by
            rw [← h]
          have hgedges : g2.edges = g.edges ++ [⟨t, node0.first_outgoing_edge⟩] := by
            rw [← h]
          refine ⟨by rw [hgnodes, List.length_set], ?_, by rw [hgedges]; simp, ?_⟩
          · intro i hi
            rw [hgnodes]
            rcases eq_or_ne i s with rfl | hne
            · rw [List.getElem?_set_self (by omega), hnode]
              rfl
            · rw [List.getElem?_set_ne (fun hcon => hne hcon.symm)]
          · intro j hj
            rw [hgedges, List.getElem?_append_left hj]

theorem applyOps_mono (more : List (Op T)) :
    ∀ g g2 : Graph T, applyOps g more = some g2 →
    g.nodes.length ≤ g2.nodes.length ∧
    (∀ i, i < g.nodes.length →
      (g2.nodes[i]?).map Node.value = (g.nodes[i]?).map Node.value) ∧
    g.edges.length ≤ g2.edges.length ∧
    (∀ j, j < g.edges.length → g2.edges[j]? = g.edges[j]?) := by
  induction more with
  | nil =>
      intro g g2 h
      rw [applyOps, List.foldlM_nil] at h
      obtain rfl : g = g2 := by simpa using h
      exact ⟨le_refl _, fun i _ => rfl, le_refl _, fun j _ => rfl⟩
  | cons op rest ih =>
      intro g g2 h
      rw [applyOps_cons, Option.bind_eq_some] at h
      obtain ⟨g1, hop, hrest⟩ := h
      obtain ⟨hn1, hv1, he1, hj1⟩ := applyOp_mono hop
      obtain ⟨hn2, hv2, he2, hj2⟩ := ih g1 g2 hrest
      refine ⟨le_trans hn1 hn2, ?_, le_trans he1 he2, ?_⟩
      · intro i hi
        rw [hv2 i (by omega), hv1 i hi]
      · intro j hj
        rw [hj2 j (by omega), hj1 j hj]

/-! ### Iterated find-or-add stabilizes after the first insertion -/

theorem iterFindOrAdd_succ_eq (T : Type) [DecidableEq T] (value : T) :
    ∀ n : Nat, iterFindOrAdd value (n + 1) = ⟨[⟨value, none⟩], []⟩ := by
  intro n
  induction n with
  | zero =>
      rw [iterFindOrAdd, iterFindOrAdd]
      simp [findOrAdd, Graph.find_node, Graph.new, Graph.add_node]
  | succ m ih =>
      rw [iterFindOrAdd, ih]
      simp [findOrAdd, Graph.find_node, List.findIdx?]

/-! ### Claim theorems -/

/-- C1 (counterexample): in the fan graph with edges from node 0 added to
targets 1, 2, 3 in that order, the node emitted directly after 0 by the
depth-first traversal is 1 (the target of the edge added first), not 3
(the target of the edge added most recently), refuting the claim that the
most recently added edge is explored first upon the next pop. -/
theorem dfs_most_recent_first_cex :
    fanGraph.successors 0 = some [3, 2, 1] ∧
    fanGraph.dfsList 0 6 = some [0, 1, 2, 3] ∧
    [0, 1, 2, 3][1]? ≠ some 3 := by decide

/-- C1 (amended): when the depth-first traversal emits a node `n` whose
successor enumeration is `[t3, t2, t1]` (reverse insertion order), it
pushes the successors onto the stack in that enumeration order, leaving
`t1` — the target of the edge added *first* from `n` — on top of the
stack, so `t1` is explored first upon the next pop. -/
theorem dfs_push_order (T : Type) (g : Graph T) (visited : List Bool) (node : Nat)
    (rest : List Nat) (t1 t2 t3 : Nat)
    (hv : visited[node]? = some false)
    (hs : g.successors node = some [t3, t2, t1]) :
    Dfs.next g ⟨visited, node :: rest⟩ =
      some (some (node, ⟨visited.set node true, t1 :: t2 :: t3 :: rest⟩)) := by
  have hlt : node < visited.length := (List.getElem?_eq_some_iff.mp hv).1
  show dfsNextGo g visited (node :: rest) = _
  rw [dfsNextGo, hv]
  simp only [Dfs.visit, setVisited, if_pos hlt, hs]
  rfl

/-- C1 (witness): the amended push-order theorem applied to the fan
graph. -/
theorem dfs_push_order_witness :
    Dfs.next fanGraph ⟨[false, false, false, false], 0 :: []⟩ =
      some (some (0, ⟨[false, false, false, false].set 0 true, 1 :: 2 :: 3 :: []⟩)) :=
  dfs_push_order Nat fanGraph [false, false, false, false] 0 [] 1 2 3
    (by decide) (by decide)

/-- C2 (counterexample): on a graph with a single node, `add_edge` with
the out-of-bounds target 5 succeeds (returns an edge index) instead of
failing fast. -/
theorem add_edge_invalid_target_succeeds :
    oneNodeGraph.nodes.length ≤ 5 ∧
    (oneNodeGraph.add_edge 0 5).isSome = true := by decide

/-- C2 (amended): `add_edge` fails fast exactly when `source` is an
invalid index; the `target` index is never validated, so the call
succeeds for every target whenever the source is valid. -/
theorem add_edge_isSome_iff_source_valid (T : Type) (g : Graph T) (s t : Nat) :
    (g.add_edge s t).isSome = true ↔ s < g.nodes.length := by
  rw [add_edge_eq]
  cases h : g.nodes[s]? with
  | none =>
      have hlen := List.getElem?_eq_none_iff.mp h
      simp only [Option.map_none', Option.isSome_none]
      constructor
      · intro hc
        exact absurd hc (by simp)
      · intro hc
        exact absurd hc (by omega)
  | some node =>
      have hlt := (List.getElem?_eq_some_iff.mp h).1
      simp only [Option.map_some', Option.isSome_some]
      constructor
      · intro _
        exact hlt
      · intro _
        trivial

/-- C3 (code evaluated at the failing input): on the one-node graph with
a self-loop, the successor enumerator produces one element while the
iterator's size hint reports the upper bound `nodes.len() - 1 = 0`, so
the reported upper bound is smaller than the number of elements
produced. -/
theorem successors_size_hint_cex :
    selfLoopGraph.successors 0 = some [0] ∧
    Successors.size_hint selfLoopGraph = (0, some 0) ∧
    0 < [(0 : Nat)].length := by decide

/-- C5: on the seven-node example graph (nodes inserted in the order
A, B, C, E, D, F, G, so that the listed indices carry the values
A, B, D, F, E, C, G), the depth-first traversal from A's node emits each
reachable node exactly once in first-discovery pre-order and then
terminates. -/
theorem dfs_preorder_seven_nodes :
    sevenNodeGraph.dfsList 0 20 = some [0, 1, 4, 5, 3, 2, 6] ∧
    [0, 1, 4, 5, 3, 2, 6].map sevenNodeGraph.node_value =
      ['A', 'B', 'D', 'F', 'E', 'C', 'G'].map some ∧
    List.Nodup [0, 1, 4, 5, 3, 2, 6] ∧
    sevenNodeGraph.nodes.length = 7 := by decide

/-- C7: in any graph built through the public API, the successor
enumeration of any node `n` is exactly the reverse of the list of targets
of the edges added with `n` as source, one element per such edge. -/
theorem successors_reverse_insertion (T : Type) (ops : List (Op T)) (g : Graph T)
    (h : buildGraph ops = some g) (n : Nat) (hn : n < g.nodes.length) :
    g.successors n = some (edgeTargetsFrom ops n).reverse ∧
    ∀ l, g.successors n = some l → l.length = (edgeTargetsFrom ops n).length := by
  have htrace := (build_inv ops g h).2.2.2 n hn
  refine ⟨htrace, ?_⟩
  intro l hl
  rw [htrace] at hl
  obtain rfl : (edgeTargetsFrom ops n).reverse = l := by simpa using hl
  simp

/-- C7 (witness): the fan graph, where edges from node 0 were added to
targets 1, 2, 3 in that order, enumerates successors as [3, 2, 1]. -/
theorem successors_reverse_insertion_witness :
    fanGraph.successors 0 = some (edgeTargetsFrom fanOps 0).reverse ∧
    ∀ l, fanGraph.successors 0 = some l →
      l.length = (edgeTargetsFrom fanOps 0).length :=
  successors_reverse_insertion Nat fanOps fanGraph (by decide) 0 (by decide)

/-- C8: indices are stable and unique: `add_node` returns the next fresh
index and the node resolves to the stored value; any further sequence of
operations preserves the value behind every node index and the record
behind every edge index; and an index returned by a later `add_node` can
never collide with one returned earlier. -/
theorem index_stability (T : Type) :
    (∀ (g : Graph T) (v : T), (g.add_node v).2 = g.nodes.length ∧
      (g.add_node v).1.node_value (g.add_node v).2 = some v) ∧
    (∀ (g : Graph T) (more : List (Op T)) (g2 : Graph T),
      applyOps g more = some g2 →
      (∀ i, i < g.nodes.length → g2.node_value i = g.node_value i) ∧
      (∀ j, j < g.edges.length → g2.edges[j]? = g.edges[j]?)) ∧
    (∀ (g : Graph T) (v : T) (more : List (Op T)) (g2 : Graph T),
      applyOps (g.add_node v).1 more = some g2 →
      g2.node_value (g.add_node v).2 = some v) ∧
    (∀ (g : Graph T) (v w : T) (more : List (Op T)) (g2 : Graph T),
      applyOps (g.add_node v).1 more = some g2 →
      (g2.add_node w).2 ≠ (g.add_node v).2) := by
  have hfresh : ∀ (g : Graph T) (v : T), (g.add_node v).2 = g.nodes.length :=
    fun g v => rfl
  have hval : ∀ (g : Graph T) (v : T),
      (g.add_node v).1.node_value (g.add_node v).2 = some v := by
    intro g v
    rw [Graph.add_node, Graph.node_value]
    simp [List.getElem?_concat_length]
  refine ⟨fun g v => ⟨hfresh g v, hval g v⟩, ?_, ?_, ?_⟩
  · intro g more g2 h
    obtain ⟨_, hv, _, hj⟩ := applyOps_mono more g g2 h
    exact ⟨fun i hi => by rw [Graph.node_value, Graph.node_value, hv i hi], hj⟩
  · intro g v more g2 h
    obtain ⟨_, hv, _, _⟩ := applyOps_mono more (g.add_node v).1 g2 h
    have hlen : (g.add_node v).2 < (g.add_node v).1.nodes.length := by
      rw [Graph.add_node]
      simp
    have := hv (g.add_node v).2 hlen
    rw [Graph.node_value, this, ← Graph.node_value, hval g v]
  · intro g v w more g2 h
    obtain ⟨hn, _, _, _⟩ := applyOps_mono more (g.add_node v).1 g2 h
    have h1 : (g.add_node v).1.nodes.length = g.nodes.length + 1 := by
      rw [Graph.add_node]
      simp
    rw [hfresh g2 w, hfresh g v]
    omega

/-- C8 (witness): after adding a node with value 5 to the empty graph and
then running further operations (another node and an edge), index 0 still
resolves to the value 5. -/
theorem index_stability_witness :
    stabG.node_value (((Graph.new Nat).add_node 5).2) = some 5 :=
  (index_stability Nat).2.2.1 (Graph.new Nat) 5 stabOps stabG (by decide)

/-- C9: applying the find-or-add-node operation `n ≥ 1` times in a row
with the same value to an initially empty graph yields a graph with
exactly one node. -/
theorem find_or_add_idempotent (T : Type) [DecidableEq T] (value : T) (n : Nat)
    (h : 1 ≤ n) : (iterFindOrAdd value n).nodes.length = 1 := by
  obtain ⟨m, rfl⟩ : ∃ m, n = m + 1 := ⟨n - 1, by omega⟩
  rw [iterFindOrAdd_succ_eq]
  rfl

/-- C9 (witness): five insertions of the same value leave exactly one
node, as in the specification's example. -/
theorem find_or_add_idempotent_witness :
    1 ≤ 5 ∧ (iterFindOrAdd (1 : Nat) 5).nodes.length = 1 :=
  ⟨by decide, find_or_add_idempotent Nat 1 5 (by decide)⟩

/-- C10: in every graph built through the public API, each edge's
`next_outgoing_edge`, when present, is strictly smaller than the edge's
own index, and consequently the successor enumeration of every valid node
terminates after at most `edges.length` steps. -/
theorem edges_next_decreasing (T : Type) (ops : List (Op T)) (g : Graph T)
    (h : buildGraph ops = some g) :
    (∀ j, j < g.edges.length → ∀ e, g.edges[j]? = some e →
      ∀ e2, e.next_outgoing_edge = some e2 → e2 < j) ∧
    (∀ n, n < g.nodes.length →
      ∃ l, g.successors n = some l ∧ l.length ≤ g.edges.length) := by
  obtain ⟨hh, he, _, _⟩ := build_inv ops g h
  refine ⟨fun j _ e hje e2 hne => he.next_lt hje hne, fun n hn => successors_total hh he hn⟩

/-- C10 (witness): the decreasing-next property and successor termination
bound applied to the fan graph. -/
theorem edges_next_decreasing_witness :
    (∀ j, j < fanGraph.edges.length → ∀ e, fanGraph.edges[j]? = some e →
      ∀ e2, e.next_outgoing_edge = some e2 → e2 < j) ∧
    (∀ n, n < fanGraph.nodes.length →
      ∃ l, fanGraph.successors n = some l ∧ l.length ≤ fanGraph.edges.length) :=
  edges_next_decreasing Nat fanOps fanGraph (by decide)

/-! ### Safety of the breadth-first step: queued nodes are unvisited -/

theorem mem_finsetSort {S : Finset Nat} {v : Nat} : v ∈ finsetSort S ↔ v ∈ S := by
  rcases S with ⟨m, hm⟩
  induction m using Quotient.inductionOn with
  | h l =>
      show v ∈ (l.insertionSort (· ≤ ·)) ↔ _
      rw [List.mem_insertionSort]
      simp [Finset.mem_mk]

theorem finsetSort_toFinset (S : Finset Nat) : (finsetSort S).toFinset = S := by
  apply Finset.ext
  intro a
  rw [List.mem_toFinset, mem_finsetSort]

theorem setVisited_some {visited : List Bool} {node : Nat} {v2 : List Bool}
    (h : setVisited visited node = some v2) :
    node < visited.length ∧ v2 = visited.set node true := by
  rw [setVisited] at h
  split at h
  · exact ⟨by assumption, by simpa using h.symm⟩
  · exact absurd h (by simp)

theorem extendLoop_marks (g : Graph T) :
    ∀ (L : List Nat) (visited : List Bool) (next : Finset Nat)
      (visited2 : List Bool) (next2 : Finset Nat),
      bfsExtendLoop g L visited next = some (visited2, next2) →
      visited2.length = visited.length ∧
      (∀ i, visited2[i]? = if i ∈ L then some true else visited[i]?) := by
  intro L
  induction L with
  | nil =>
      intro visited next visited2 next2 h
      rw [bfsExtendLoop] at h
      obtain ⟨rfl, rfl⟩ : visited = visited2 ∧ next = next2 := by
        constructor <;> [skip; skip] <;> simp_all
      exact ⟨rfl, fun i => by simp⟩
  | cons node rest ih =>
      intro visited next visited2 next2 h
      rw [bfsExtendLoop] at h
      cases hsv : setVisited visited node with
      | none => rw [hsv] at h; exact absurd h (by simp)
      | some v1 =>
          rw [hsv] at h
          cases hsc : g.successors node with
          | none => rw [hsc] at h; exact absurd h (by simp)
          | some succs =>
              rw [hsc] at h
              obtain ⟨hnode, rfl⟩ := setVisited_some hsv
              obtain ⟨hlen, hchar⟩ := ih _ _ _ _ h
              constructor
              · rw [hlen, List.length_set]
              · intro i
                rw [hchar i]
                by_cases hmem : i ∈ rest
                · simp [hmem]
                · rcases eq_or_ne i node with rfl | hne
                  · simp [hmem, List.getElem?_set_self hnode]
                  · simp only [hmem, if_false]
                    rw [List.getElem?_set_ne (fun hcon => hne hcon.symm)]
                    simp [List.mem_cons, hne, hmem]

theorem retainUnvisited_some {visited : List Bool} {next retained : Finset Nat}
    (h : retainUnvisited visited next = some retained) :
    (∀ v ∈ next, v < visited.length) ∧
    retained = next.filter (fun v => visited[v]? = some false) := by
  rw [retainUnvisited] at h
  split at h
  · exact ⟨by assumption, by simpa using h.symm⟩
  · exact absurd h (by simp)

theorem bfs_next_some (g : Graph T) (b : Bfs) (S : Finset Nat) (b2 : Bfs)
    (h : Bfs.next g b = some (some (S, b2))) :
    ∃ rest visited2 next2 retained,
      b.queue = S :: rest ∧
      bfsExtendLoop g (finsetSort S) b.visited ∅ = some (visited2, next2) ∧
      retainUnvisited visited2 next2 = some retained ∧
      b2 = ⟨visited2, if retained = ∅ then rest else rest ++ [retained]⟩ := by
  obtain ⟨visited, queue⟩ := b
  cases queue with
  | nil => exact absurd h (by rw [Bfs.next]; simp)
  | cons nodes rest =>
      rw [Bfs.next] at h
      simp only [Option.bind_eq_some, Option.map_eq_some'] at h
      obtain ⟨⟨v2, n2⟩, hext, retained, hret, hout⟩ := h
      simp only [Option.some.injEq, Prod.mk.injEq] at hout
      obtain ⟨rfl, rfl⟩ := hout
      exact ⟨rest, v2, n2, retained, rfl, hext, hret, rfl⟩

theorem bfs_step_inv (g : Graph T) {b b2 : Bfs} {S : Finset Nat}
    (hinv : BfsInv b) (h : Bfs.next g b = some (some (S, b2))) :
    (∀ v ∈ S, b.visited[v]? = some false) ∧
    BfsInv b2 ∧
    (∀ v ∈ S, b2.visited[v]? = some true) ∧
    (∀ v : Nat, b2.visited[v]? = some false → b.visited[v]? = some false) := by
  obtain ⟨rest, v2, n2, retained, hq, hext, hret, rfl⟩ := bfs_next_some g b S b2 h
  obtain ⟨hlen, hchar⟩ := extendLoop_marks g _ _ _ _ _ hext
  obtain ⟨hbound, hfil⟩ := retainUnvisited_some hret
  obtain rfl : rest = [] := by
    have := hinv.1
    rw [hq] at this
    simp at this
    exact this
  have hSq : S ∈ b.queue := by rw [hq]; exact List.mem_cons_self S []
  have hSunv : ∀ v ∈ S, b.visited[v]? = some false := fun v hv => hinv.2 S hSq v hv
  have hmark : ∀ v ∈ S, v2[v]? = some true := by
    intro v hv
    rw [hchar v, if_pos (mem_finsetSort.mpr hv)]
  have hmono : ∀ v : Nat, v2[v]? = some false → b.visited[v]? = some false := by
    intro v hv
    rw [hchar v] at hv
    by_cases hmem : v ∈ finsetSort S
    · rw [if_pos hmem] at hv
      exact absurd hv (by simp)
    · rwa [if_neg hmem] at hv
  refine ⟨hSunv, ⟨?_, ?_⟩, hmark, hmono⟩
  · by_cases hre : retained = ∅ <;> simp [hre]
  · intro S2 hS2 v hv
    by_cases hre : retained = ∅
    · rw [if_pos hre] at hS2
      simp at hS2
    · rw [if_neg hre] at hS2
      simp only [List.nil_append, List.mem_singleton] at hS2
      subst hS2
      rw [hfil] at hv
      exact (Finset.mem_filter.mp hv).2

theorem bfs_run_disjoint (g : Graph T) :
    ∀ (fuel : Nat) (b : Bfs) (l : List (Finset Nat)), BfsInv b →
      bfsRun g b fuel = some l →
      l.Pairwise Disjoint ∧ (∀ S ∈ l, ∀ v ∈ S, b.visited[v]? = some false) := by
  intro fuel
  induction fuel with
  | zero =>
      intro b l _ h
      exact absurd h (by rw [bfsRun]; simp)
  | succ f ih =>
      intro b l hinv h
      rw [bfsRun] at h
      cases hn : Bfs.next g b with
      | none => rw [hn] at h; exact absurd h (by simp)
      | some step =>
          rw [hn] at h
          cases step with
          | none =>
              obtain rfl : [] = l := by simpa using h
              exact ⟨List.Pairwise.nil, by simp⟩
          | some p =>
              obtain ⟨S, b2⟩ := p
              simp only [Option.map_eq_some'] at h
              obtain ⟨l2, hrun, rfl⟩ := h
              obtain ⟨hSunv, hinv2, hmark, hmono⟩ := bfs_step_inv g hinv hn
              obtain ⟨hpair, hunv⟩ := ih b2 l2 hinv2 hrun
              constructor
              · rw [List.pairwise_cons]
                refine ⟨?_, hpair⟩
                intro S2 hS2
                rw [Finset.disjoint_left]
                intro a haS haS2
                have h1 := hmark a haS
                have h2 := hunv S2 hS2 a haS2
                rw [h1] at h2
                exact absurd h2 (by simp)
              · intro S2 hS2 v hv
                rcases List.mem_cons.mp hS2 with rfl | hS2
                · exact hSunv v hv
                · exact hmono v (hunv S2 hS2 v hv)

theorem setVisited_none {visited : List Bool} {node : Nat}
    (h : visited.length ≤ node) : setVisited visited node = none := by
  rw [setVisited, if_neg (by omega)]

/-- C6: the frontiers emitted by any breadth-first traversal are pairwise
disjoint (a node never reappears once visited, also with cycles and
self-loops); in particular on the two-node cycle A→B, B→A the traversal
from A emits exactly [{A}, {B}] and terminates. -/
theorem bfs_frontiers_disjoint :
    (∀ (T : Type) (g : Graph T) (s fuel : Nat) (l : List (Finset Nat)),
      g.bfsList s fuel = some l → l.Pairwise Disjoint) ∧
    twoCycleGraph.bfsList 0 3 = some [{0}, {1}] ∧
    twoCycleGraph.node_value 0 = some 'A' ∧
    twoCycleGraph.node_value 1 = some 'B' := by
  refine ⟨?_, by decide, by decide, by decide⟩
  intro T g s fuel l h
  rcases Nat.lt_or_ge s g.nodes.length with hs | hs
  · refine (bfs_run_disjoint g fuel (g.bfs s) l ⟨?_, ?_⟩ h).1
    · simp [Graph.bfs]
    · intro S hS v hv
      simp only [Graph.bfs, List.mem_singleton] at hS
      subst hS
      rw [Finset.mem_singleton] at hv
      subst hv
      simp only [Graph.bfs]
      rw [List.getElem?_map]
      obtain ⟨node, hnode⟩ : ∃ node, g.nodes[v]? = some node := by
        cases hg : g.nodes[v]? with
        | none => rw [List.getElem?_eq_none_iff] at hg; omega
        | some node => exact ⟨node, rfl⟩
      rw [hnode]
      rfl
  · exfalso
    cases fuel with
    | zero =>
        rw [Graph.bfsList, bfsRun] at h
        exact absurd h (by simp)
    | succ f =>
        have hsv : setVisited (g.nodes.map (fun _ => false)) s = none :=
          setVisited_none (by simpa using hs)
        have hsort : finsetSort {s} = [s] := rfl
        have hext : bfsExtendLoop g [s] (g.nodes.map (fun _ => false)) ∅ = none := by
          rw [bfsExtendLoop, hsv]
        have hnext : Bfs.next g (g.bfs s) = none := by
          rw [Graph.bfs, Bfs.next]
          show (bfsExtendLoop g (finsetSort {s}) (g.nodes.map fun _ => false) ∅).bind _ = none
          rw [hsort, hext]
          rfl
        rw [Graph.bfsList, bfsRun, hnext] at h
        exact absurd h (by simp)

/-- C6 (witness): the disjointness theorem applied to the two-node cycle:
the two emitted frontiers are disjoint. -/
theorem bfs_frontiers_disjoint_witness :
    List.Pairwise Disjoint [({0} : Finset Nat), {1}] :=
  bfs_frontiers_disjoint.1 Char twoCycleGraph 0 3 [{0}, {1}] (by decide)

/-! ### Walks, balls and spheres -/

theorem chain_concat_iff {R : Nat → Nat → Prop} :
    ∀ (l : List Nat) (a b : Nat),
      List.Chain R a (l ++ [b]) ↔
        List.Chain R a l ∧ R ((a :: l).getLast (List.cons_ne_nil a l)) b := by
  intro l
  induction l with
  | nil =>
      intro a b
      simp [List.chain_cons]
  | cons c l ih =>
      intro a b
      rw [List.cons_append, List.chain_cons, List.chain_cons, ih c b,
        ← and_assoc]
      constructor
      · rintro ⟨⟨h1, h2⟩, h3⟩
        refine ⟨⟨h1, h2⟩, ?_⟩
        rw [List.getLast_cons (List.cons_ne_nil c l)]
        exact h3
      · rintro ⟨⟨h1, h2⟩, h3⟩
        rw [List.getLast_cons (List.cons_ne_nil c l)] at h3
        exact ⟨⟨h1, h2⟩, h3⟩

theorem walkLen_zero (g : Graph T) (s v : Nat) : WalkLen g s v 0 ↔ v = s := by
  constructor
  · rintro ⟨p, hc, hlast, hlen⟩
    obtain rfl : p = [] := List.length_eq_zero.mp hlen
    exact hlast.symm
  · rintro rfl
    exact ⟨[], List.Chain.nil, rfl, rfl⟩

theorem ball_iff_walk (g : Graph T) (s : Nat) :
    ∀ (k v : Nat), v ∈ ball g s k ↔ ∃ j, j ≤ k ∧ WalkLen g s v j := by
  intro k
  induction k with
  | zero =>
      intro v
      rw [ball, Finset.mem_singleton]
      constructor
      · rintro rfl
        exact ⟨0, le_refl 0, (walkLen_zero _ _ _).mpr rfl⟩
      · rintro ⟨j, hj, hw⟩
        obtain rfl : j = 0 := by omega
        exact (walkLen_zero g s v).mp hw
  | succ k ih =>
      intro v
      rw [ball, Finset.mem_union]
      constructor
      · rintro (hv | hv)
        · obtain ⟨j, hj, hw⟩ := (ih v).mp hv
          exact ⟨j, by omega, hw⟩
        · rw [nbhd, Finset.mem_biUnion] at hv
          obtain ⟨u, hu, hv⟩ := hv
          rw [List.mem_toFinset] at hv
          obtain ⟨j, hj, p, hc, hlast, hlen⟩ := (ih u).mp hu
          refine ⟨j + 1, by omega, p ++ [v], ?_, ?_, by simp [hlen]⟩
          · rw [chain_concat_iff]
            refine ⟨hc, ?_⟩
            rw [hlast]
            exact hv
          · exact List.getLast_concat (a := v) (s :: p)
      · rintro ⟨j, hj, hw⟩
        rcases Nat.lt_or_ge j (k + 1) with hlt | hge
        · exact Or.inl ((ih v).mpr ⟨j, by omega, hw⟩)
        · obtain rfl : j = k + 1 := by omega
          obtain ⟨p, hc, hlast, hlen⟩ := hw
          obtain ⟨q, w, rfl⟩ : ∃ q w, p = q ++ [w] := by
            rcases List.eq_nil_or_concat' p with rfl | ⟨q, w, rfl⟩
            · simp at hlen
            · exact ⟨q, w, rfl⟩
          rw [chain_concat_iff] at hc
          obtain ⟨hcq, hR⟩ := hc
          have hwv : w = v := by
            have h2 : (s :: (q ++ [w])).getLast (List.cons_ne_nil s (q ++ [w])) = w :=
              List.getLast_concat (a := w) (s :: q)
            rw [h2] at hlast
            exact hlast
          subst hwv
          right
          rw [nbhd, Finset.mem_biUnion]
          refine ⟨(s :: q).getLast (List.cons_ne_nil s q), ?_, ?_⟩
          · apply (ih _).mpr
            refine ⟨q.length, ?_, q, hcq, rfl, rfl⟩
            simp at hlen
            omega
          · rw [List.mem_toFinset]
            exact hR

theorem ball_subset_succ (g : Graph T) (s k : Nat) :
    ball g s k ⊆ ball g s (k + 1) :=
  Finset.subset_union_left

theorem ball_mono (g : Graph T) (s : Nat) :
    ∀ {j k : Nat}, j ≤ k → ball g s j ⊆ ball g s k := by
  intro j k h
  induction k with
  | zero =>
      obtain rfl : j = 0 := by omega
      exact subset_refl _
  | succ k ih =>
      rcases Nat.lt_or_ge j (k + 1) with hlt | hge
      · exact (ih (by omega)).trans (ball_subset_succ g s k)
      · obtain rfl : j = k + 1 := by omega
        exact subset_refl _

theorem sphere_eq (g : Graph T) (s k : Nat) :
    sphere g s k = ball g s k \ preBall g s k := by
  cases k with
  | zero =>
      rw [sphere, preBall, ball]
      simp
  | succ k => rfl

theorem sphere_subset_ball (g : Graph T) (s k : Nat) :
    sphere g s k ⊆ ball g s k := by
  rw [sphere_eq]
  exact Finset.sdiff_subset

theorem preBall_union_sphere (g : Graph T) (s k : Nat) :
    preBall g s k ∪ sphere g s k = ball g s k := by
  cases k with
  | zero =>
      rw [preBall, sphere, ball]
      simp
  | succ k =>
      rw [preBall, sphere]
      exact Finset.union_sdiff_of_subset (ball_subset_succ g s k)

theorem sphere_disjoint_preBall (g : Graph T) (s k : Nat) :
    Disjoint (preBall g s k) (sphere g s k) := by
  rw [sphere_eq]
  exact Finset.disjoint_sdiff

theorem nbhd_mono {g : Graph T} {S S2 : Finset Nat} (h : S ⊆ S2) :
    nbhd g S ⊆ nbhd g S2 :=
  Finset.biUnion_subset_biUnion_of_subset_left _ h

theorem nbhd_sphere_sdiff (g : Graph T) (s k : Nat) :
    nbhd g (sphere g s k) \ ball g s k = sphere g s (k + 1) := by
  rw [show sphere g s (k + 1) = ball g s (k + 1) \ ball g s k from rfl]
  rw [show ball g s (k + 1) = ball g s k ∪ nbhd g (ball g s k) from rfl]
  rw [Finset.union_sdiff_left]
  apply subset_antisymm
  · exact Finset.sdiff_subset_sdiff (nbhd_mono (sphere_subset_ball g s k)) (subset_refl _)
  · intro v hv
    rw [Finset.mem_sdiff] at hv ⊢
    obtain ⟨hvn, hvb⟩ := hv
    rw [nbhd, Finset.mem_biUnion] at hvn
    obtain ⟨u, hu, hv⟩ := hvn
    refine ⟨?_, hvb⟩
    rw [nbhd, Finset.mem_biUnion]
    refine ⟨u, ?_, hv⟩
    rw [sphere_eq, Finset.mem_sdiff]
    refine ⟨hu, ?_⟩
    intro hpre
    apply hvb
    cases k with
    | zero =>
        rw [preBall] at hpre
        exact absurd hpre (Finset.not_mem_empty u)
    | succ j =>
        rw [preBall] at hpre
        rw [show ball g s (j + 1) = ball g s j ∪ nbhd g (ball g s j) from rfl,
          Finset.mem_union]
        right
        rw [nbhd, Finset.mem_biUnion]
        exact ⟨u, hpre, hv⟩

theorem sphere_iff_dist (g : Graph T) (s : Nat) :
    ∀ (k v : Nat), v ∈ sphere g s k ↔ distIs g s v k := by
  intro k v
  rw [sphere_eq, Finset.mem_sdiff, ball_iff_walk]
  cases k with
  | zero =>
      rw [preBall]
      simp only [Finset.not_mem_empty, not_false_iff, and_true]
      constructor
      · rintro ⟨j, hj, hw⟩
        obtain rfl : j = 0 := by omega
        exact ⟨hw, fun j2 hj2 => absurd hj2 (by omega)⟩
      · rintro ⟨hw, _⟩
        exact ⟨0, le_refl 0, hw⟩
  | succ k =>
      rw [preBall, ball_iff_walk]
      constructor
      · rintro ⟨⟨j, hj, hw⟩, hnot⟩
        obtain rfl : j = k + 1 := by
          by_contra hne
          exact hnot ⟨j, by omega, hw⟩
        refine ⟨hw, ?_⟩
        intro j2 hj2 hw2
        exact hnot ⟨j2, by omega, hw2⟩
      · rintro ⟨hw, hmin⟩
        refine ⟨⟨k + 1, le_refl _, hw⟩, ?_⟩
        rintro ⟨j, hj, hw2⟩
        exact hmin j (by omega) hw2

/-! ### Well-formedness consequences for the distance layers -/

theorem succWalk_targets (edges : List Edge) (m : Nat)
    (htgt : ∀ (j : Nat) (e : Edge), edges[j]? = some e → e.target < m) :
    ∀ (fuel : Nat) (cur : Option Nat) (l : List Nat),
      succWalk edges cur fuel = some l → ∀ v ∈ l, v < m := by
  intro fuel
  induction fuel with
  | zero =>
      intro cur l h v hv
      cases cur with
      | none =>
          rw [succWalk_none] at h
          obtain rfl : [] = l := by simpa using h
          simp at hv
      | some e => rw [succWalk_zero] at h; exact absurd h (by simp)
  | succ f ih =>
      intro cur l h v hv
      cases cur with
      | none =>
          rw [succWalk_none] at h
          obtain rfl : [] = l := by simpa using h
          simp at hv
      | some e =>
          rw [succWalk_succ] at h
          cases hget : edges[e]? with
          | none => rw [hget] at h; exact absurd h (by simp)
          | some edge =>
              rw [hget] at h
              simp only [Option.some_bind, Option.map_eq_some'] at h
              obtain ⟨l2, hrec, rfl⟩ := h
              rcases List.mem_cons.mp hv with rfl | hv2
              · exact htgt e edge hget
              · exact ih _ l2 hrec v hv2

theorem succsD_eq {g : Graph T} (hh : HeadsWF g) (he : EdgesWF g.edges) {u : Nat}
    (hu : u < g.nodes.length) : g.successors u = some (succsD g u) := by
  obtain ⟨l, hl, _⟩ := successors_total hh he hu
  rw [succsD, hl]
  rfl

theorem succsD_bound {g : Graph T} (hwf : GraphWF g) {u : Nat}
    (hu : u < g.nodes.length) :
    ∀ v ∈ succsD g u, v < g.nodes.length := by
  obtain ⟨hh, he, ht⟩ := hwf
  have hsome := succsD_eq hh he hu
  rw [successors_eq] at hsome
  cases hnode : g.nodes[u]? with
  | none =>
      rw [List.getElem?_eq_none_iff] at hnode
      omega
  | some node =>
      rw [hnode, Option.some_bind] at hsome
      exact succWalk_targets g.edges g.nodes.length
        (fun j e hj => ht.target_lt hj) _ _ _ hsome

theorem ball_subset_range {g : Graph T} (hwf : GraphWF g) {s : Nat}
    (hs : s < g.nodes.length) :
    ∀ k, ball g s k ⊆ Finset.range g.nodes.length := by
  intro k
  induction k with
  | zero =>
      intro v hv
      rw [ball, Finset.mem_singleton] at hv
      subst hv
      rw [Finset.mem_range]
      exact hs
  | succ k ih =>
      rw [show ball g s (k + 1) = ball g s k ∪ nbhd g (ball g s k) from rfl]
      apply Finset.union_subset ih
      intro v hv
      rw [nbhd, Finset.mem_biUnion] at hv
      obtain ⟨u, hu, hv⟩ := hv
      rw [List.mem_toFinset] at hv
      have hun : u < g.nodes.length := by
        have := ih hu
        rwa [Finset.mem_range] at this
      rw [Finset.mem_range]
      exact succsD_bound hwf hun v hv

/-! ### The extend loop computed on a well-formed frontier -/

theorem mem_visitedSet {l : List Bool} {i : Nat} :
    i ∈ visitedSet l ↔ l[i]? = some true := by
  rw [visitedSet, Finset.mem_filter, Finset.mem_range]
  constructor
  · rintro ⟨_, h⟩
    exact h
  · intro h
    exact ⟨(List.getElem?_eq_some_iff.mp h).1, h⟩

theorem nbhd_insert (g : Graph T) (a : Nat) (S : Finset Nat) :
    nbhd g (insert a S) = (succsD g a).toFinset ∪ nbhd g S :=
  Finset.biUnion_insert

theorem extendLoop_spec (g : Graph T) :
    ∀ (L : List Nat) (visited : List Bool) (next : Finset Nat),
      (∀ v ∈ L, v < visited.length) →
      (∀ v ∈ L, ∃ lv, g.successors v = some lv) →
      ∃ visited2 next2,
        bfsExtendLoop g L visited next = some (visited2, next2) ∧
        next2 = next ∪ nbhd g L.toFinset := by
  intro L
  induction L with
  | nil =>
      intro visited next _ _
      refine ⟨visited, next, rfl, ?_⟩
      simp [nbhd]
  | cons node rest ih =>
      intro visited next hlt hsucc
      have hnode := hlt node (List.mem_cons_self node rest)
      obtain ⟨lv, hlv⟩ := hsucc node (List.mem_cons_self node rest)
      have hstep : bfsExtendLoop g (node :: rest) visited next =
          bfsExtendLoop g rest (visited.set node true) (next ∪ lv.toFinset) := by
        rw [bfsExtendLoop, setVisited, if_pos hnode, hlv]
      obtain ⟨v2, n2, hrec, hn2⟩ :=
        ih (visited.set node true) (next ∪ lv.toFinset)
          (fun v hv => by
            have := hlt v (List.mem_cons_of_mem node hv)
            simpa using this)
          (fun v hv => hsucc v (List.mem_cons_of_mem node hv))
      refine ⟨v2, n2, by rw [hstep]; exact hrec, ?_⟩
      rw [hn2, List.toFinset_cons, nbhd_insert]
      have hsd : succsD g node = lv := by
        rw [succsD, hlv]
        rfl
      rw [hsd, Finset.union_assoc]

theorem bfs_next_singleton (g : Graph T) (visited : List Bool) (S : Finset Nat) :
    Bfs.next g ⟨visited, [S]⟩ =
      (bfsExtendLoop g (finsetSort S) visited ∅).bind fun p =>
        (retainUnvisited p.1 p.2).map fun next =>
          some (S, ⟨p.1, if next = ∅ then [] else [] ++ [next]⟩) := rfl

theorem bfs_step_sphere {g : Graph T} (hwf : GraphWF g) {s : Nat}
    (hs : s < g.nodes.length) (k : Nat) (b : Bfs)
    (hst : StInv g s k b) (hne : sphere g s k ≠ ∅) :
    ∃ b2, Bfs.next g b = some (some (sphere g s k, b2)) ∧ StInv g s (k + 1) b2 := by
  obtain ⟨hlen, hvis, hqueue, hcard⟩ := hst
  rw [if_neg hne] at hqueue
  obtain ⟨hh, he, ht⟩ := hwf
  have hsub : sphere g s k ⊆ Finset.range g.nodes.length :=
    (sphere_subset_ball g s k).trans (ball_subset_range ⟨hh, he, ht⟩ hs k)
  have hLlt : ∀ v ∈ finsetSort (sphere g s k), v < b.visited.length := by
    intro v hv
    rw [mem_finsetSort] at hv
    have := hsub hv
    rw [Finset.mem_range] at this
    omega
  have hLsucc : ∀ v ∈ finsetSort (sphere g s k), ∃ lv, g.successors v = some lv := by
    intro v hv
    rw [mem_finsetSort] at hv
    have := hsub hv
    rw [Finset.mem_range] at this
    obtain ⟨l, hl, _⟩ := successors_total hh he this
    exact ⟨l, hl⟩
  obtain ⟨v2, n2, hext, hn2⟩ := extendLoop_spec g _ b.visited ∅ hLlt hLsucc
  obtain ⟨hlen2, hchar⟩ := extendLoop_marks g _ _ _ _ _ hext
  have hvs2 : visitedSet v2 = ball g s k := by
    apply Finset.ext
    intro i
    rw [mem_visitedSet, hchar i]
    by_cases hmem : i ∈ finsetSort (sphere g s k)
    · rw [if_pos hmem]
      rw [mem_finsetSort] at hmem
      constructor
      · intro _
        exact sphere_subset_ball g s k hmem
      · intro _
        rfl
    · rw [if_neg hmem]
      rw [mem_finsetSort] at hmem
      rw [← mem_visitedSet, hvis]
      constructor
      · intro hi
        rw [← preBall_union_sphere g s k]
        exact Finset.mem_union_left _ hi
      · intro hi
        rw [← preBall_union_sphere g s k, Finset.mem_union] at hi
        rcases hi with hi | hi
        · exact hi
        · exact absurd hi hmem
  have hn2' : n2 = nbhd g (sphere g s k) := by
    rw [hn2, finsetSort_toFinset]
    simp
  have hbound2 : ∀ v ∈ n2, v < v2.length := by
    intro v hv
    rw [hn2', nbhd, Finset.mem_biUnion] at hv
    obtain ⟨u, hu, hv⟩ := hv
    rw [List.mem_toFinset] at hv
    have hun : u < g.nodes.length := by
      have := hsub hu
      rwa [Finset.mem_range] at this
    have := succsD_bound ⟨hh, he, ht⟩ hun v hv
    omega
  have hret : retainUnvisited v2 n2 =
      some (n2.filter (fun v => v2[v]? = some false)) := by
    rw [retainUnvisited, if_pos hbound2]
  have hfil : n2.filter (fun v => v2[v]? = some false) = sphere g s (k + 1) := by
    rw [← nbhd_sphere_sdiff g s k, ← hn2']
    apply Finset.ext
    intro v
    rw [Finset.mem_filter, Finset.mem_sdiff]
    constructor
    · rintro ⟨hv, hfalse⟩
      refine ⟨hv, ?_⟩
      intro hball
      rw [← hvs2, mem_visitedSet] at hball
      rw [hball] at hfalse
      exact absurd hfalse (by simp)
    · rintro ⟨hv, hnball⟩
      refine ⟨hv, ?_⟩
      have hvlt : v < v2.length := hbound2 v hv
      cases hb : v2[v]? with
      | none =>
          rw [List.getElem?_eq_none_iff] at hb
          omega
      | some bb =>
          cases bb with
          | false => rfl
          | true =>
              exfalso
              apply hnball
              rw [← hvs2, mem_visitedSet]
              exact hb
  have hbrep : (⟨b.visited, [sphere g s k]⟩ : Bfs) = b := by
    rw [← hqueue]
  refine ⟨⟨v2, if sphere g s (k + 1) = ∅ then [] else [sphere g s (k + 1)]⟩, ?_, ?_, ?_, ?_, ?_⟩
  · rw [← hbrep, bfs_next_singleton, hext, Option.some_bind, hret, Option.map_some', hfil]
    rw [List.nil_append]
  · show v2.length = g.nodes.length
    omega
  · show visitedSet v2 = preBall g s (k + 1)
    rw [preBall]
    exact hvs2
  · rfl
  · show k + 1 ≤ (visitedSet v2).card
    rw [hvs2, ← preBall_union_sphere g s k,
      Finset.card_union_of_disjoint (sphere_disjoint_preBall g s k)]
    have h1 : 0 < (sphere g s k).card := by
      rw [Finset.card_pos]
      exact Finset.nonempty_of_ne_empty hne
    have h2 : k ≤ (preBall g s k).card := by
      rw [← hvis]
      exact hcard
    omega

theorem range_map_sphere_succ (g : Graph T) (s : Nat) (m k0 : Nat) :
    (List.range (m + 1)).map (fun i => sphere g s (k0 + i)) =
      sphere g s k0 :: (List.range m).map (fun i => sphere g s (k0 + 1 + i)) := by
  rw [List.range_succ_eq_map, List.map_cons, List.map_map, List.cons.injEq]
  refine ⟨by rw [Nat.add_zero], List.map_congr_left ?_⟩
  intro i _
  show sphere g s (k0 + (i + 1)) = sphere g s (k0 + 1 + i)
  congr 1
  omega

theorem bfs_run_spheres {g : Graph T} (hwf : GraphWF g) {s : Nat}
    (hs : s < g.nodes.length) :
    ∀ (fuel k : Nat) (b : Bfs), StInv g s k b →
      g.nodes.length + 1 ≤ k + fuel →
      ∃ m, bfsRun g b fuel =
          some ((List.range m).map (fun i => sphere g s (k + i))) ∧
        sphere g s (k + m) = ∅ := by
  intro fuel
  induction fuel with
  | zero =>
      intro k b hst hbound
      exfalso
      obtain ⟨hlen, hvis, _, hcard⟩ := hst
      have hsubr : visitedSet b.visited ⊆ Finset.range g.nodes.length := by
        intro i hi
        rw [mem_visitedSet] at hi
        have := (List.getElem?_eq_some_iff.mp hi).1
        rw [Finset.mem_range]
        omega
      have := Finset.card_le_card hsubr
      rw [Finset.card_range] at this
      omega
  | succ f ih =>
      intro k b hst hbound
      by_cases hne : sphere g s k = ∅
      · have hq : b.queue = [] := by
          obtain ⟨_, _, hqueue, _⟩ := hst
          rw [hqueue, if_pos hne]
        have hbrep : (⟨b.visited, ([] : List (Finset Nat))⟩ : Bfs) = b := by
          rw [← hq]
        have hnext : Bfs.next g b = some none := by
          rw [← hbrep]
          rfl
        rw [bfsRun, hnext]
        refine ⟨0, by simp, ?_⟩
        rw [Nat.add_zero]
        exact hne
      · obtain ⟨b2, hnext, hst2⟩ := bfs_step_sphere hwf hs k b hst hne
        obtain ⟨m2, hrun2, hdead⟩ := ih (k + 1) b2 hst2 (by omega)
        refine ⟨m2 + 1, ?_, ?_⟩
        · rw [bfsRun, hnext]
          simp only [hrun2, Option.map_some']
          rw [range_map_sphere_succ g s m2 k]
        · have heq : k + (m2 + 1) = k + 1 + m2 := by omega
          rw [heq]
          exact hdead

/-- C4: on every well-formed graph and valid source, the breadth-first
traversal terminates within `nodes.length + 1` pulls and its `k`-th
emitted frontier is exactly the set of nodes at shortest-path distance
`k` from the source (so frontiers appear in strictly increasing distance
order); on the chain 1→2→3→4 (indices 0,1,2,3) the traversal emits
exactly [{1}, {2}, {3}, {4}] by value and terminates. -/
theorem bfs_layers_are_distance_spheres :
    (∀ (T : Type) (g : Graph T) (s : Nat), GraphWF g → s < g.nodes.length →
      ∃ l, g.bfsList s (g.nodes.length + 1) = some l ∧
        ∀ (k : Nat) (S : Finset Nat), l[k]? = some S →
          ∀ v : Nat, v ∈ S ↔ distIs g s v k) ∧
    chainGraph.bfsList 0 5 = some [{0}, {1}, {2}, {3}] ∧
    chainGraph.node_value 0 = some 1 ∧ chainGraph.node_value 1 = some 2 ∧
    chainGraph.node_value 2 = some 3 ∧ chainGraph.node_value 3 = some 4 := by
  refine ⟨?_, by decide, by decide, by decide, by decide, by decide⟩
  intro T g s hwf hs
  have hst0 : StInv g s 0 (g.bfs s) := by
    refine ⟨by simp [Graph.bfs], ?_, ?_, by omega⟩
    · rw [preBall]
      apply Finset.ext
      intro i
      rw [mem_visitedSet]
      simp only [Graph.bfs, List.getElem?_map, Finset.not_mem_empty, iff_false]
      cases g.nodes[i]? <;> simp
    · show [{s}] = if sphere g s 0 = ∅ then [] else [sphere g s 0]
      rw [show sphere g s 0 = {s} from rfl, if_neg (Finset.singleton_ne_empty s)]
  obtain ⟨m, hrun, _⟩ :=
    bfs_run_spheres hwf hs (g.nodes.length + 1) 0 (g.bfs s) hst0 (by omega)
  refine ⟨_, hrun, ?_⟩
  intro k S hS v
  rw [List.getElem?_map] at hS
  cases hrk : (List.range m)[k]? with
  | none => rw [hrk] at hS; exact absurd hS (by simp)
  | some i =>
      rw [hrk] at hS
      have hk : k < m := by
        have := (List.getElem?_eq_some_iff.mp hrk).1
        simpa using this
      rw [List.getElem?_range hk] at hrk
      obtain rfl : k = i := by simpa using hrk
      simp only [Option.map_some', Option.some.injEq] at hS
      subst hS
      rw [Nat.zero_add]
      exact sphere_iff_dist g s k v

/-- C4 (witness): the layer theorem applied to the chain 1→2→3→4 from
its head. -/
theorem bfs_layers_are_distance_spheres_witness :
    ∃ l, chainGraph.bfsList 0 (chainGraph.nodes.length + 1) = some l ∧
      ∀ (k : Nat) (S : Finset Nat), l[k]? = some S →
        ∀ v : Nat, v ∈ S ↔ distIs chainGraph 0 v k :=
  bfs_layers_are_distance_spheres.1 Nat chainGraph 0 (by decide) (by decide)
